import Mathlib

/-!
# Universal gRPC gun: a shallow embedding of `universal_grpc_gun.go`

The gun binds once (`Gun.Bind`: dial, reflection discovery, catalog of methods)
and then turns each ammo into one request and one sample (`Gun.shoot`).

Everything the gun calls into but does not define (the reflection client, the
dynamic message unmarshaller, the dynamic stub) is a field of an environment
record, so the theorems hold for every behaviour of those collaborators.
Effects of `shoot` that the source performs on collaborators (unmarshal,
invoke, report) are recorded, in program order, in a trace.

Two facts about libraries that are not part of this repository are used, and
the definitions that state them carry a doc comment starting
`Modelled from the library:`. That the stub returns a nil response with every
error is a hypothesis of the theorem on invocation errors only. That the
unmarshaller, called with its default options, stops at a member that is no
field of the schema is used by the theorem on unknown payload fields and by the
concrete targets of the witnesses.
-/

namespace GrpcGun

/-! ## Go maps with string keys -/

/-- A Go `map[string]V`: the entries, at most one per key. -/
abbrev GoMap (V : Type) := List (String × V)

namespace GoMap

/-- The lookup `v, ok := m[k]`: `some v` when `ok`. -/
def get? {V : Type} (m : GoMap V) (k : String) : Option V :=
  match m with
  | [] => none
  | (k', v) :: rest => if k' = k then some v else get? rest k

/-- The assignment `m[k] = v`: overwrites the entry of `k` if there is one. -/
def set {V : Type} (m : GoMap V) (k : String) (v : V) : GoMap V :=
  match m with
  | [] => [(k, v)]
  | (k', v') :: rest => if k' = k then (k, v) :: rest else (k', v') :: set rest k v

/-- The keys of the map. -/
def keys {V : Type} (m : GoMap V) : List String := m.map Prod.fst

end GoMap

/-! ## Descriptors (`desc.MessageDescriptor`, `desc.MethodDescriptor`) -/

/-- The kind of a protobuf field; `message` and `enum` name their type. -/
inductive FieldType
  | double
  | float
  | int32
  | int64
  | uint32
  | uint64
  | sint32
  | sint64
  | fixed32
  | fixed64
  | sfixed32
  | sfixed64
  | bool
  | string
  | bytes
  | enum (typeName : String)
  | message (typeName : String)
  deriving DecidableEq, Repr

/-- A field of a message schema; a map field is a repeated entry message. -/
structure FieldDescriptor where
  name : String
  jsonName : String
  type : FieldType
  repeated : Bool
  deriving DecidableEq, Repr

/-- A message schema (`desc.MessageDescriptor`). -/
structure MessageDescriptor where
  fullyQualifiedName : String
  fields : List FieldDescriptor
  deriving DecidableEq, Repr

/-- A method schema (`desc.MethodDescriptor`): `name` is the short name,
`fullyQualifiedName` what `GetFullyQualifiedName` returns. -/
structure MethodDescriptor where
  name : String
  fullyQualifiedName : String
  inputType : MessageDescriptor
  outputType : MessageDescriptor
  deriving DecidableEq, Repr

/-- A resolved service (`desc.ServiceDescriptor`); `methods` is `GetMethods()`. -/
structure ServiceDescriptor where
  fullyQualifiedName : String
  methods : List MethodDescriptor
  deriving DecidableEq, Repr

/-! ## Payloads and JSON documents -/

/-- A Go value held in an `interface{}` of the payload. `unsupported` stands
for the values `json.Marshal` rejects (a channel, a func, a NaN or infinite
float). The entries of a `map` are listed in ascending key order, the order in
which `json.Marshal` emits them. -/
inductive Value
  | null
  | bool (b : Bool)
  | number (n : Int)
  | str (s : String)
  | slice (xs : List Value)
  | map (entries : List (String × Value))
  | unsupported

/-- A JSON document, as produced by `json.Marshal`. -/
inductive JSON
  | null
  | bool (b : Bool)
  | number (n : Int)
  | str (s : String)
  | arr (xs : List JSON)
  | obj (members : List (String × JSON))

mutual
/-- The encoder of `json.Marshal` on one value: `none` is the error
`UnsupportedTypeError` / `UnsupportedValueError`. -/
def Value.encode : Value → Option JSON
  | .null => some .null
  | .bool b => some (.bool b)
  | .number n => some (.number n)
  | .str s => some (.str s)
  | .slice xs => (Value.encodeList xs).map JSON.arr
  | .map entries => (Value.encodeEntries entries).map JSON.obj
  | .unsupported => none
/-- Encoding of the elements of a slice, left to right. -/
def Value.encodeList : List Value → Option (List JSON)
  | [] => some []
  | v :: vs =>
    match Value.encode v with
    | none => none
    | some j =>
      match Value.encodeList vs with
      | none => none
      | some js => some (j :: js)
/-- Encoding of the entries of a map, in key order. -/
def Value.encodeEntries : List (String × Value) → Option (List (String × JSON))
  | [] => some []
  | (k, v) :: rest =>
    match Value.encode v with
    | none => none
    | some j =>
      match Value.encodeEntries rest with
      | none => none
      | some js => some ((k, j) :: js)
end

/-- The call `json.Marshal(ammo.Payload)` on a `map[string]interface{}`: a nil map
(`none`) encodes as `null`, a map as an object; `none` is a returned error. -/
def json.Marshal (payload : Option (List (String × Value))) : Option JSON :=
  match payload with
  | none => some .null
  | some entries => (Value.encodeEntries entries).map JSON.obj

mutual
/-- The values `encoding/json` produces when it decodes a document into an
`interface{}`: nil, bool, number, string, and slices and maps of such values. -/
def Value.decoded : Value → Bool
  | .null => true
  | .bool _ => true
  | .number _ => true
  | .str _ => true
  | .slice xs => Value.decodedList xs
  | .map entries => Value.decodedEntries entries
  | .unsupported => false
/-- All elements of a slice are decoded values. -/
def Value.decodedList : List Value → Bool
  | [] => true
  | v :: vs => Value.decoded v && Value.decodedList vs
/-- All values of a map are decoded values. -/
def Value.decodedEntries : List (String × Value) → Bool
  | [] => true
  | (_, v) :: rest => Value.decoded v && Value.decodedEntries rest
end

/-- A payload read from an ammo document: the custom JSON provider registered in
`main` decodes every `Ammo` from JSON, so its payload is nil or a map of
decoded values. -/
def payloadDecoded (payload : Option (List (String × Value))) : Bool :=
  match payload with
  | none => true
  | some entries => Value.decodedEntries entries

/-! ## Dynamic messages, metadata, samples -/

/-- A dynamic message (`dynamic.Message`): its descriptor and the fields set. -/
structure Message where
  md : MessageDescriptor
  fields : List (String × JSON)

/-- Lower-casing of a key as done by `strings.ToLower`, on ASCII letters; a
non-ASCII capital, which `strings.ToLower` lower-cases too, is left as it is. -/
def toLower (s : String) : String := ⟨s.data.map Char.toLower⟩

/-- Call metadata (`metadata.MD`): a map from string to a list of strings. -/
abbrev MD := GoMap (List String)

/-- The empty metadata `make(metadata.MD)`. -/
def MD.make : MD := []

/-- The call `metadata.Pairs(key, value)`: a fresh MD holding the one pair, the
key lower-cased. -/
def metadata.Pairs (key value : String) : MD := [(toLower key, [value])]

/-- The values `md.Get(k)` stored under a key (lower-cased); empty if absent. -/
def MD.Get (md : MD) (k : String) : List String := (GoMap.get? md (toLower k)).getD []

/-- A load-test sample (`netsample.Sample`): tag and protocol code. -/
structure netsample.Sample where
  tag : String
  protoCode : Int
  deriving DecidableEq, Repr

/-- The call `netsample.Acquire(tag)`: a fresh sample, code 0. -/
def netsample.Acquire (tag : String) : netsample.Sample := { tag := tag, protoCode := 0 }

/-- The call `sample.SetProtoCode(code)`. -/
def netsample.Sample.SetProtoCode (s : netsample.Sample) (code : Int) : netsample.Sample :=
  { s with protoCode := code }

/-! ## Ammo and gun -/

/-- One unit of input. `Metadata` lists the entries of the `map[string]string`
in the order in which `range` visits them in this run (nil and empty are both
`[]`); `Payload` is `none` for a nil map. -/
structure Ammo where
  Tag : String
  Call : String
  Metadata : List (String × String)
  Payload : Option (List (String × Value))

/-- A value of the interface `core.Ammo`: this gun's `*Ammo` or some other type. -/
inductive CoreAmmo
  | custom (ammo : Ammo)
  | foreign (typeName : String)

/-- Gun configuration. -/
structure GunConfig where
  Target : String
  deriving DecidableEq, Repr

/-- A client connection returned by `grpc.Dial`. -/
structure ClientConn where
  target : String
  deriving DecidableEq, Repr

/-- The aggregator handed to `Bind`. -/
structure Aggregator where
  id : Nat
  deriving DecidableEq, Repr

/-- The dependencies handed to `Bind` (`core.GunDeps`). -/
structure GunDeps where
  id : Nat
  deriving DecidableEq, Repr

/-- The gun. Fields set by `Bind` are `none` (the zero value) before it;
`services` is the catalog, empty before `Bind`. -/
structure Gun where
  client : Option ClientConn
  conf : GunConfig
  aggr : Option Aggregator
  deps : Option GunDeps
  stub : Option ClientConn
  services : GoMap MethodDescriptor
  deriving DecidableEq, Repr

/-- The constructor `NewGun(conf)`. -/
def NewGun (conf : GunConfig) : Gun :=
  { client := none, conf := conf, aggr := none, deps := none, stub := none, services := [] }

/-! ## Collaborators -/

/-- What the gun calls into at shoot time. `UnmarshalJSON md js` is
`dynamic.NewMessage(md).UnmarshalJSON(js)`: the message or the error.
`InvokeRpc ctxMeta method message` is the pair `(out, err)` returned by
`g.stub.InvokeRpc`, `none` standing for nil. -/
structure Env where
  UnmarshalJSON : MessageDescriptor → JSON → Except String Message
  InvokeRpc : MD → MethodDescriptor → Message → Option Message × Option String

/-- What `Bind` calls into. `Dial` is `grpc.Dial`, `ListServices` the pair
`(listServices, err)` returned by the reflection client, `ResolveService` the
service or the error. -/
structure ReflectionEnv where
  Dial : String → Except String ClientConn
  ListServices : List String × Option String
  ResolveService : String → Except String ServiceDescriptor

/-! ## Traces -/

/-- A call made on a collaborator, with its arguments. -/
inductive Event
  | UnmarshalJSON (md : MessageDescriptor) (payloadJson : JSON)
  | InvokeRpc (ctxMeta : MD) (method : MethodDescriptor) (message : Message)
  | Report (aggr : Aggregator) (sample : netsample.Sample)

/-- How a call ended: it returned, the process was ended by `log.Fatalf`, or
it panicked. -/
inductive Termination
  | returned
  | fatal
  | panicked
  deriving DecidableEq, Repr

/-- The result of running `shoot`: the gun afterwards, the calls made, and how
the run ended. -/
structure Outcome where
  gun : Gun
  trace : List Event
  status : Termination

/-- The samples handed to the aggregator, in order. -/
def reports (t : List Event) : List netsample.Sample :=
  t.filterMap fun e => match e with
    | .Report _ s => some s
    | _ => none

/-- The metadata of the `InvokeRpc` calls, in order. -/
def invocations (t : List Event) : List MD :=
  t.filterMap fun e => match e with
    | .InvokeRpc m _ _ => some m
    | _ => none

/-- The number of schema unmarshal calls. -/
def unmarshals (t : List Event) : Nat :=
  (t.filter fun e => match e with
    | .UnmarshalJSON _ _ => true
    | _ => false).length

/-! ## `Gun.shoot` -/

/-- The state of the body of `shoot` when it stops: the value of `code`, the
calls made so far and whether the body returned or ended the process. -/
structure Body where
  code : Int
  trace : List Event
  status : Termination

/-- The loop `for key, value := range ammo.Metadata { meta = metadata.Pairs(key, value) }`
started from `make(metadata.MD)`. -/
def buildMeta (entries : List (String × String)) : MD :=
  entries.foldl (fun _ kv => metadata.Pairs kv.1 kv.2) MD.make

/-- The statements of `shoot` between the `defer` and the end of the function. -/
def shootBody (g : Gun) (env : Env) (ammo : Ammo) : Body :=
  let code : Int := 0
  match g.services.get? ammo.Call with
  | none => { code := code, trace := [], status := .returned }
  | some method =>
    match json.Marshal ammo.Payload with
    | none => { code := code, trace := [], status := .fatal }
    | some payloadJson =>
      let md := method.inputType
      match env.UnmarshalJSON md payloadJson with
      | .error _ =>
        { code := 400, trace := [.UnmarshalJSON md payloadJson], status := .returned }
      | .ok message =>
        let ctxMeta := buildMeta ammo.Metadata
        let r := env.InvokeRpc ctxMeta method message
        let code := if r.2.isSome then 0 else code
        let code := if r.1.isSome then 200 else code
        { code := code
          trace := [.UnmarshalJSON md payloadJson, .InvokeRpc ctxMeta method message]
          status := .returned }

/-- The method `shoot`: acquire the sample, run the body, and, when the body
returns, run the deferred function (set the code, report to `g.aggr`; a nil
aggregator panics). `log.Fatalf` ends the process without running it. -/
def shoot (g : Gun) (env : Env) (ammo : Ammo) : Outcome :=
  let sample := netsample.Acquire ammo.Tag
  let b := shootBody g env ammo
  match b.status with
  | .returned =>
    match g.aggr with
    | some aggr =>
      { gun := g, trace := b.trace ++ [.Report aggr (sample.SetProtoCode b.code)],
        status := .returned }
    | none => { gun := g, trace := b.trace, status := .panicked }
  | st => { gun := g, trace := b.trace, status := st }

/-- The method `Shoot`: the type assertion `ammo.(*Ammo)` panics on any other
ammo type. -/
def Shoot (g : Gun) (env : Env) (ammo : CoreAmmo) : Outcome :=
  match ammo with
  | .custom a => shoot g env a
  | .foreign _ => { gun := g, trace := [], status := .panicked }

/-! ## `Gun.Bind` -/

/-- How `Bind` ended: the process was ended by `log.Fatalf`, or it returned
`err` leaving the gun `g`. -/
inductive BindResult
  | fatal (msg : String)
  | returned (err : Option String) (g : Gun)
  deriving DecidableEq, Repr

/-- The inner loop `for _, m := range listMethods { g.services[m.GetFullyQualifiedName()] = *m }`. -/
def addMethods (services : GoMap MethodDescriptor) (listMethods : List MethodDescriptor) :
    GoMap MethodDescriptor :=
  listMethods.foldl (fun acc m => acc.set m.fullyQualifiedName m) services

/-- The outer loop `for _, s := range listServices`: the catalog, or the error
of the first `ResolveService` that fails (the process then ends). -/
def discover (renv : ReflectionEnv) (listServices : List String)
    (services : GoMap MethodDescriptor) : Except String (GoMap MethodDescriptor) :=
  match listServices with
  | [] => .ok services
  | s :: rest =>
    match renv.ResolveService s with
    | .error e => .error e
    | .ok service => discover renv rest (addMethods services service.methods)

/-- The method `Bind`. The error returned with the list by `ListServices` is
not looked at. -/
def Bind (g : Gun) (renv : ReflectionEnv) (aggr : Aggregator) (deps : GunDeps) : BindResult :=
  match renv.Dial g.conf.Target with
  | .error e => .fatal e
  | .ok conn =>
    let g1 : Gun := { g with client := some conn, aggr := some aggr, deps := some deps,
                             stub := some conn }
    let listServices := renv.ListServices.1
    match discover renv listServices [] with
    | .error e => .fatal e
    | .ok services => .returned none { g1 with services := services }

/-! ## The stub and the dynamic unmarshaller

`g.stub` is a `grpcdynamic.Stub` and `message` a `dynamic.Message` of
`github.com/jhump/protoreflect`; neither is part of this repository. -/

/-- Modelled from the library: `grpcdynamic.Stub.InvokeRpc` returns `nil, err` on
each of its error paths, so a stub never hands back a response together with an
error. -/
def NilResponseOnError
    (invoke : MD → MethodDescriptor → Message → Option Message × Option String) : Prop :=
  ∀ (ctxMeta : MD) (method : MethodDescriptor) (message : Message),
    (invoke ctxMeta method message).2 ≠ none → (invoke ctxMeta method message).1 = none

/-- The configuration `jsonpb.Unmarshaler` (the option that matters here). -/
structure Unmarshaler where
  AllowUnknownFields : Bool
  deriving DecidableEq, Repr

/-- The lookup `FindFieldDescriptorByJSONName`: by JSON name or by field name. -/
def MessageDescriptor.FindFieldDescriptorByJSONName (md : MessageDescriptor) (name : String) :
    Option FieldDescriptor :=
  md.fields.find? fun fd => decide (fd.jsonName = name) || decide (fd.name = name)

/-- Modelled from the library: the parts of `dynamic.Message.UnmarshalJSON` that
the model leaves open. `wellKnown md` is the special decoding of a message type
the library treats as well known (`none` for an ordinary message), `field` the
decoding of one field value (`none` leaves the field unset), `validate` the
check run on the message once it is filled (`some e` is an error). -/
structure Decoders where
  wellKnown : MessageDescriptor → Option (JSON → Except String Message)
  field : FieldDescriptor → JSON → Except String (Option JSON)
  validate : Message → Option String

/-- Modelled from the library: the loop of `dynamic.Message.UnmarshalJSON` over
the members of the top-level object, in order, into the fields set so far. A
member whose name is no field of the schema is skipped when unknown fields are
allowed and is an error otherwise. -/
def unmarshalMembers (dec : Decoders) (opts : Unmarshaler) (md : MessageDescriptor) :
    List (String × JSON) → List (String × JSON) → Except String (List (String × JSON))
  | [], acc => .ok acc
  | (name, v) :: rest, acc =>
    match md.FindFieldDescriptorByJSONName name with
    | none =>
      if opts.AllowUnknownFields then unmarshalMembers dec opts md rest acc
      else .error "message type has no known field"
    | some fd =>
      match dec.field fd v with
      | .error e => .error e
      | .ok none => unmarshalMembers dec opts md rest (acc.filter fun p => decide (p.1 ≠ fd.name))
      | .ok (some x) =>
        unmarshalMembers dec opts md rest
          ((acc.filter fun p => decide (p.1 ≠ fd.name)) ++ [(fd.name, x)])

/-- The check run on the filled message. -/
def validated (dec : Decoders) (message : Message) : Except String Message :=
  match dec.validate message with
  | some e => .error e
  | none => .ok message

/-- Modelled from the library: the method `UnmarshalJSONPB(opts, js)` on a fresh
message of type `md`. A well-known type has its own decoding; otherwise `null`
leaves the message empty, an object is read member by member, and anything else
is an error. -/
def UnmarshalJSONPB (dec : Decoders) (opts : Unmarshaler) (md : MessageDescriptor) (js : JSON) :
    Except String Message :=
  match dec.wellKnown md with
  | some decode => decode js
  | none =>
    match js with
    | .null => validated dec { md := md, fields := [] }
    | .obj members =>
      match unmarshalMembers dec opts md members [] with
      | .error e => .error e
      | .ok fields => validated dec { md := md, fields := fields }
    | _ => .error "bad input: expecting start of JSON object"

/-- Modelled from the library: the method `UnmarshalJSON(js)`, which is
`UnmarshalJSONPB(&jsonpb.Unmarshaler{}, js)`: the zero-value options, in which
`AllowUnknownFields` is false. -/
def UnmarshalJSON (dec : Decoders) (md : MessageDescriptor) (js : JSON) : Except String Message :=
  UnmarshalJSONPB dec { AllowUnknownFields := false } md js

/-- The collaborators of a gun whose messages are the library's dynamic
messages: the unmarshaller is `UnmarshalJSON`, the stub is any. -/
def libraryEnv (dec : Decoders)
    (invoke : MD → MethodDescriptor → Message → Option Message × Option String) : Env :=
  { UnmarshalJSON := UnmarshalJSON dec, InvokeRpc := invoke }

/-! ## Field decoding of the concrete targets

The targets below use string and bool fields only. -/

/-- Decoding of one value of a string or bool field: a string for a string
field, a bool or the strings `true` and `false` for a bool field; anything else
is the error "bad input". Other kinds do not occur in the targets below. -/
def unmarshalJsFieldElement (fd : FieldDescriptor) (v : JSON) : Except String JSON :=
  match fd.type, v with
  | .string, .str s => .ok (.str s)
  | .bool, .bool b => .ok (.bool b)
  | .bool, .str s =>
    if s = "true" then .ok (.bool true)
    else if s = "false" then .ok (.bool false)
    else .error "bad input"
  | _, _ => .error "bad input"

/-- Decoding of the elements of an array given for a field that is not
repeated: each element is decoded, the last one is kept. -/
def unmarshalJsElements (fd : FieldDescriptor) : List JSON → Option JSON → Except String (Option JSON)
  | [], last => .ok last
  | v :: vs, _ =>
    match unmarshalJsFieldElement fd v with
    | .error e => .error e
    | .ok x => unmarshalJsElements fd vs (some x)

/-- Decoding of one field value: `null` leaves the field unset, an array is
decoded element by element, any other value as one element. -/
def unmarshalJsField (fd : FieldDescriptor) (v : JSON) : Except String (Option JSON) :=
  match v with
  | .null => .ok none
  | .arr xs => unmarshalJsElements fd xs none
  | other =>
    match unmarshalJsFieldElement fd other with
    | .error e => .error e
    | .ok x => .ok (some x)

/-- The decoders of the concrete targets: no well-known type, no check after
filling. -/
def echoDecoders : Decoders :=
  { wellKnown := fun _ => none, field := unmarshalJsField, validate := fun _ => none }

/-! ## A concrete target: `pkg.Svc.Echo(msg: string) -> (msg: string)` -/

/-- The request type `pkg.EchoRequest`. -/
def echoRequest : MessageDescriptor :=
  { fullyQualifiedName := "pkg.EchoRequest",
    fields := [{ name := "msg", jsonName := "msg", type := .string, repeated := false }] }

/-- The response type `pkg.EchoResponse`. -/
def echoResponse : MessageDescriptor :=
  { fullyQualifiedName := "pkg.EchoResponse",
    fields := [{ name := "msg", jsonName := "msg", type := .string, repeated := false }] }

/-- The method `pkg.Svc.Echo`. -/
def echoMethod : MethodDescriptor :=
  { name := "Echo", fullyQualifiedName := "pkg.Svc.Echo",
    inputType := echoRequest, outputType := echoResponse }

/-- A gun bound to a target exposing `pkg.Svc.Echo`. -/
def echoGun : Gun :=
  { client := some { target := "localhost:50051" },
    conf := { Target := "localhost:50051" },
    aggr := some { id := 1 }, deps := some { id := 1 },
    stub := some { target := "localhost:50051" },
    services := [("pkg.Svc.Echo", echoMethod)] }

/-- A reachable echo server behind the default unmarshaller: every invocation
returns the request's fields as the response, without error. -/
def echoEnv : Env :=
  { UnmarshalJSON := UnmarshalJSON echoDecoders,
    InvokeRpc := fun _ method message =>
      (some { md := method.outputType, fields := message.fields }, none) }

/-- A stub whose every call fails at the transport layer: no response, an error. -/
def downEnv : Env :=
  { UnmarshalJSON := UnmarshalJSON echoDecoders,
    InvokeRpc := fun _ _ _ => (none, some "transport is closing") }

/-- The ammo of the spec's example. -/
def echoAmmo : Ammo :=
  { Tag := "t1", Call := "pkg.Svc.Echo", Metadata := [("x", "1")],
    Payload := some [("msg", .str "hi")] }

/-- An ammo naming a method the target does not expose. -/
def unknownAmmo : Ammo :=
  { Tag := "t0", Call := "pkg.Svc.Nope", Metadata := [], Payload := some [("msg", .str "hi")] }

/-- An ammo whose payload gives a bool where the schema wants a string. -/
def badTypeAmmo : Ammo :=
  { Tag := "t2", Call := "pkg.Svc.Echo", Metadata := [], Payload := some [("msg", .bool true)] }

/-- The example ammo with one more payload field, unknown to the schema. -/
def extraFieldAmmo : Ammo :=
  { Tag := "t1", Call := "pkg.Svc.Echo", Metadata := [("x", "1")],
    Payload := some [("extra", .str "z"), ("msg", .str "hi")] }

/-- The example ammo with two metadata entries, visited in the order `a`, `b`. -/
def twoMetaAmmo : Ammo :=
  { Tag := "t1", Call := "pkg.Svc.Echo", Metadata := [("a", "1"), ("b", "2")],
    Payload := some [("msg", .str "hi")] }

/-- The same ammo with the two entries visited in the order `b`, `a`. -/
def twoMetaAmmoRev : Ammo :=
  { Tag := "t1", Call := "pkg.Svc.Echo", Metadata := [("b", "2"), ("a", "1")],
    Payload := some [("msg", .str "hi")] }

/-! ## Concrete reflection targets -/

/-- The methods of all listed services that resolve, services in list order and
methods in service order: the order in which `Bind` writes them. -/
def listedMethods (renv : ReflectionEnv) : List MethodDescriptor :=
  renv.ListServices.1.flatMap fun s =>
    match renv.ResolveService s with
    | .ok service => service.methods
    | .error _ => []

/-- The last method of a list carrying a fully-qualified name. -/
def lastNamed (methods : List MethodDescriptor) (k : String) : Option MethodDescriptor :=
  methods.reverse.find? fun m => decide (m.fullyQualifiedName = k)

/-- A target whose reflection service fails to list the services: `ListServices`
returns a nil list and an error. -/
def listFailsEnv : ReflectionEnv :=
  { Dial := fun target => .ok { target := target },
    ListServices := ([], some "rpc error: code = Unimplemented"),
    ResolveService := fun _ => .error "rpc error: code = Unimplemented" }

/-- A target listing a service that does not resolve. -/
def resolveFailsEnv : ReflectionEnv :=
  { Dial := fun target => .ok { target := target },
    ListServices := (["pkg.Svc"], none),
    ResolveService := fun _ => .error "Service not found: pkg.Svc" }

/-- The method `Echo` of a service named `svc`, with request type `req`. -/
def echoOf (svc : String) (req : String) : MethodDescriptor :=
  { name := "Echo", fullyQualifiedName := svc ++ ".Echo",
    inputType := { fullyQualifiedName := req, fields := [] },
    outputType := echoResponse }

/-- A target listing three services: `pkg.A` and `pkg.B` both expose a method
with the short name `Echo`, and `pkg.C` resolves to a descriptor whose method
carries the fully-qualified name `pkg.A.Echo` again. -/
def threeServicesEnv : ReflectionEnv :=
  { Dial := fun target => .ok { target := target },
    ListServices := (["pkg.A", "pkg.B", "pkg.C"], none),
    ResolveService := fun s =>
      if s = "pkg.A" then .ok { fullyQualifiedName := "pkg.A", methods := [echoOf "pkg.A" "pkg.Req1"] }
      else if s = "pkg.B" then
        .ok { fullyQualifiedName := "pkg.B", methods := [echoOf "pkg.B" "pkg.Req2"] }
      else if s = "pkg.C" then
        .ok { fullyQualifiedName := "pkg.C", methods := [echoOf "pkg.A" "pkg.Req3"] }
      else .error "Service not found" }

/-! ## Facts about `shoot` -/

theorem shootBody_unknown (g : Gun) (env : Env) (ammo : Ammo)
    (h : g.services.get? ammo.Call = none) :
    shootBody g env ammo = { code := 0, trace := [], status := .returned } := by
  simp [shootBody, h]

theorem shootBody_marshal_error (g : Gun) (env : Env) (ammo : Ammo) (method : MethodDescriptor)
    (h : g.services.get? ammo.Call = some method) (hm : json.Marshal ammo.Payload = none) :
    shootBody g env ammo = { code := 0, trace := [], status := .fatal } := by
  simp [shootBody, h, hm]

theorem shootBody_bad_request (g : Gun) (env : Env) (ammo : Ammo) (method : MethodDescriptor)
    (js : JSON) (e : String)
    (h : g.services.get? ammo.Call = some method) (hm : json.Marshal ammo.Payload = some js)
    (hu : env.UnmarshalJSON method.inputType js = .error e) :
    shootBody g env ammo =
      { code := 400, trace := [.UnmarshalJSON method.inputType js], status := .returned } := by
  simp [shootBody, h, hm, hu]

theorem shootBody_invoke (g : Gun) (env : Env) (ammo : Ammo) (method : MethodDescriptor)
    (js : JSON) (message : Message)
    (h : g.services.get? ammo.Call = some method) (hm : json.Marshal ammo.Payload = some js)
    (hu : env.UnmarshalJSON method.inputType js = .ok message) :
    shootBody g env ammo =
      { code :=
          if (env.InvokeRpc (buildMeta ammo.Metadata) method message).1.isSome then 200
          else if (env.InvokeRpc (buildMeta ammo.Metadata) method message).2.isSome then 0
          else 0
        trace := [.UnmarshalJSON method.inputType js,
                  .InvokeRpc (buildMeta ammo.Metadata) method message]
        status := .returned } := by
  simp [shootBody, h, hm, hu]

theorem shoot_of_returned (g : Gun) (env : Env) (ammo : Ammo) (aggr : Aggregator)
    (hb : g.aggr = some aggr) (hs : (shootBody g env ammo).status = .returned) :
    shoot g env ammo =
      { gun := g
        trace := (shootBody g env ammo).trace ++
          [.Report aggr { tag := ammo.Tag, protoCode := (shootBody g env ammo).code }]
        status := .returned } := by
  simp [shoot, hs, hb, netsample.Acquire, netsample.Sample.SetProtoCode]

theorem shoot_of_fatal (g : Gun) (env : Env) (ammo : Ammo)
    (hs : (shootBody g env ammo).status = .fatal) :
    shoot g env ammo = { gun := g, trace := (shootBody g env ammo).trace, status := .fatal } := by
  simp [shoot, hs]

theorem unmarshalMembers_unknown (dec : Decoders) (md : MessageDescriptor) (name : String)
    (v : JSON) (hf : md.FindFieldDescriptorByJSONName name = none) :
    ∀ (members acc : List (String × JSON)), (name, v) ∈ members →
      ∃ e, unmarshalMembers dec { AllowUnknownFields := false } md members acc = .error e := by
  intro members
  induction members with
  | nil => intro acc h; cases h
  | cons p rest ih =>
    intro acc h
    obtain ⟨n, w⟩ := p
    rcases List.mem_cons.mp h with heq | hrest
    · have hn : n = name := (Prod.mk.inj heq).1.symm
      subst hn
      exact ⟨"message type has no known field", by simp [unmarshalMembers, hf]⟩
    · cases hfd : md.FindFieldDescriptorByJSONName n with
      | none => exact ⟨"message type has no known field", by simp [unmarshalMembers, hfd]⟩
      | some fd =>
        cases hv : dec.field fd w with
        | error e => exact ⟨e, by simp [unmarshalMembers, hfd, hv]⟩
        | ok x =>
          cases x with
          | none =>
            obtain ⟨e, he⟩ := ih (acc.filter fun p => decide (p.1 ≠ fd.name)) hrest
            exact ⟨e, by simp only [unmarshalMembers, hfd, hv]; exact he⟩
          | some y =>
            obtain ⟨e, he⟩ :=
              ih ((acc.filter fun p => decide (p.1 ≠ fd.name)) ++ [(fd.name, y)]) hrest
            exact ⟨e, by simp only [unmarshalMembers, hfd, hv]; exact he⟩

/-- With the default options, an object with a member that is no field of an
ordinary message type is an error, whatever the decoding of field values. -/
theorem UnmarshalJSON_unknown_field (dec : Decoders) (md : MessageDescriptor)
    (members : List (String × JSON)) (name : String) (v : JSON)
    (hwk : dec.wellKnown md = none) (hmem : (name, v) ∈ members)
    (hf : md.FindFieldDescriptorByJSONName name = none) :
    ∃ e, UnmarshalJSON dec md (.obj members) = .error e := by
  obtain ⟨e, he⟩ := unmarshalMembers_unknown dec md name v hf members [] hmem
  exact ⟨e, by simp [UnmarshalJSON, UnmarshalJSONPB, hwk, he]⟩

mutual
theorem Value.encode_of_decoded :
    ∀ (v : Value), Value.decoded v = true → ∃ j, Value.encode v = some j
  | .null, _ => ⟨.null, rfl⟩
  | .bool b, _ => ⟨.bool b, rfl⟩
  | .number n, _ => ⟨.number n, rfl⟩
  | .str s, _ => ⟨.str s, rfl⟩
  | .slice xs, h => by
    obtain ⟨js, hjs⟩ := Value.encodeList_of_decoded xs (by simpa [Value.decoded] using h)
    exact ⟨.arr js, by simp [Value.encode, hjs]⟩
  | .map entries, h => by
    obtain ⟨js, hjs⟩ := Value.encodeEntries_of_decoded entries (by simpa [Value.decoded] using h)
    exact ⟨.obj js, by simp [Value.encode, hjs]⟩
  | .unsupported, h => by simp [Value.decoded] at h
theorem Value.encodeList_of_decoded :
    ∀ (xs : List Value), Value.decodedList xs = true → ∃ js, Value.encodeList xs = some js
  | [], _ => ⟨[], rfl⟩
  | v :: vs, h => by
    simp only [Value.decodedList, Bool.and_eq_true] at h
    obtain ⟨j, hj⟩ := Value.encode_of_decoded v h.1
    obtain ⟨js, hjs⟩ := Value.encodeList_of_decoded vs h.2
    exact ⟨j :: js, by simp [Value.encodeList, hj, hjs]⟩
theorem Value.encodeEntries_of_decoded :
    ∀ (entries : List (String × Value)), Value.decodedEntries entries = true →
      ∃ js, Value.encodeEntries entries = some js
  | [], _ => ⟨[], rfl⟩
  | (k, v) :: rest, h => by
    simp only [Value.decodedEntries, Bool.and_eq_true] at h
    obtain ⟨j, hj⟩ := Value.encode_of_decoded v h.1
    obtain ⟨js, hjs⟩ := Value.encodeEntries_of_decoded rest h.2
    exact ⟨(k, j) :: js, by simp [Value.encodeEntries, hj, hjs]⟩
end

/-- The call `json.Marshal` cannot fail on a payload decoded from JSON. -/
theorem json.Marshal_of_decoded (payload : Option (List (String × Value)))
    (h : payloadDecoded payload = true) : ∃ js, json.Marshal payload = some js := by
  cases payload with
  | none => exact ⟨.null, rfl⟩
  | some entries =>
    obtain ⟨js, hjs⟩ := Value.encodeEntries_of_decoded entries h
    exact ⟨.obj js, by simp [json.Marshal, hjs]⟩

/-- The whole run of `shoot` on an ammo that reaches invocation. -/
theorem shoot_invoke_trace (g : Gun) (env : Env) (ammo : Ammo) (aggr : Aggregator)
    (method : MethodDescriptor) (js : JSON) (message : Message)
    (hb : g.aggr = some aggr)
    (h : g.services.get? ammo.Call = some method)
    (hm : json.Marshal ammo.Payload = some js)
    (hu : env.UnmarshalJSON method.inputType js = .ok message) :
    shoot g env ammo =
      { gun := g
        trace := [.UnmarshalJSON method.inputType js,
                  .InvokeRpc (buildMeta ammo.Metadata) method message,
                  .Report aggr
                    { tag := ammo.Tag
                      protoCode :=
                        if (env.InvokeRpc (buildMeta ammo.Metadata) method message).1.isSome
                        then 200 else 0 }]
        status := .returned } := by
  have hbody := shootBody_invoke g env ammo method js message h hm hu
  have hs := shoot_of_returned g env ammo aggr hb (by rw [hbody])
  rw [hs, hbody]
  simp

/-! ## The claims about `shoot` -/

/-- C1: when the ammo's call is not a key of the catalog, shoot makes exactly
one call on its collaborators, the report of a sample carrying the ammo's tag
and status code 0: there is no schema unmarshal and no InvokeRpc. -/
theorem shoot_unknown_method_reports_zero (g : Gun) (env : Env) (ammo : Ammo) (aggr : Aggregator)
    (hb : g.aggr = some aggr) (h : g.services.get? ammo.Call = none) :
    (shoot g env ammo).trace = [.Report aggr { tag := ammo.Tag, protoCode := 0 }] ∧
    reports (shoot g env ammo).trace = [{ tag := ammo.Tag, protoCode := 0 }] ∧
    unmarshals (shoot g env ammo).trace = 0 ∧
    invocations (shoot g env ammo).trace = [] ∧
    (shoot g env ammo).status = .returned := by
  have hbody := shootBody_unknown g env ammo h
  have hs := shoot_of_returned g env ammo aggr hb (by rw [hbody])
  rw [hs, hbody]
  simp [reports, unmarshals, invocations]

theorem shoot_unknown_method_reports_zero_witness :
    echoGun.aggr = some { id := 1 } ∧ echoGun.services.get? unknownAmmo.Call = none ∧
    reports (shoot echoGun echoEnv unknownAmmo).trace = [{ tag := "t0", protoCode := 0 }] ∧
    unmarshals (shoot echoGun echoEnv unknownAmmo).trace = 0 ∧
    invocations (shoot echoGun echoEnv unknownAmmo).trace = [] :=
  have h := shoot_unknown_method_reports_zero echoGun echoEnv unknownAmmo { id := 1 } rfl
    (by decide)
  ⟨rfl, by decide, h.2.1, h.2.2.1, h.2.2.2.1⟩

/-- C2: when the ammo's call is in the catalog and UnmarshalJSON of the
marshalled payload against the method's input type returns an error, shoot
reports one sample with status code 400 and never calls InvokeRpc. -/
theorem shoot_unmarshal_error_reports_400 (g : Gun) (env : Env) (ammo : Ammo) (aggr : Aggregator)
    (method : MethodDescriptor) (js : JSON) (e : String)
    (hb : g.aggr = some aggr)
    (h : g.services.get? ammo.Call = some method)
    (hm : json.Marshal ammo.Payload = some js)
    (hu : env.UnmarshalJSON method.inputType js = .error e) :
    reports (shoot g env ammo).trace = [{ tag := ammo.Tag, protoCode := 400 }] ∧
    invocations (shoot g env ammo).trace = [] ∧
    (shoot g env ammo).status = .returned := by
  have hbody := shootBody_bad_request g env ammo method js e h hm hu
  have hs := shoot_of_returned g env ammo aggr hb (by rw [hbody])
  rw [hs, hbody]
  simp [reports, invocations]

theorem shoot_unmarshal_error_reports_400_witness :
    echoEnv.UnmarshalJSON echoMethod.inputType (.obj [("msg", .bool true)]) = .error "bad input" ∧
    reports (shoot echoGun echoEnv badTypeAmmo).trace = [{ tag := "t2", protoCode := 400 }] ∧
    invocations (shoot echoGun echoEnv badTypeAmmo).trace = [] :=
  have h := shoot_unmarshal_error_reports_400 echoGun echoEnv badTypeAmmo { id := 1 } echoMethod
    (.obj [("msg", .bool true)]) "bad input" rfl (by decide) rfl rfl
  ⟨rfl, h.1, h.2.1⟩

/-- C3: when the ammo's call is in the catalog and the payload unmarshals
against the input type, shoot calls InvokeRpc exactly once, on the catalogued
method with the unmarshalled message, after the one unmarshal and before the
one report; and if that call returns a response the reported sample has status
code 200 and the ammo's tag. -/
theorem shoot_invokes_once_and_reports_200 (g : Gun) (env : Env) (ammo : Ammo)
    (aggr : Aggregator) (method : MethodDescriptor) (js : JSON) (message : Message)
    (hb : g.aggr = some aggr)
    (h : g.services.get? ammo.Call = some method)
    (hm : json.Marshal ammo.Payload = some js)
    (hu : env.UnmarshalJSON method.inputType js = .ok message) :
    (∃ code, (shoot g env ammo).trace =
      [.UnmarshalJSON method.inputType js,
       .InvokeRpc (buildMeta ammo.Metadata) method message,
       .Report aggr { tag := ammo.Tag, protoCode := code }]) ∧
    ((env.InvokeRpc (buildMeta ammo.Metadata) method message).1 ≠ none →
      (shoot g env ammo).trace =
        [.UnmarshalJSON method.inputType js,
         .InvokeRpc (buildMeta ammo.Metadata) method message,
         .Report aggr { tag := ammo.Tag, protoCode := 200 }]) ∧
    invocations (shoot g env ammo).trace = [buildMeta ammo.Metadata] ∧
    (invocations (shoot g env ammo).trace).length = 1 ∧
    ((env.InvokeRpc (buildMeta ammo.Metadata) method message).1 ≠ none →
      reports (shoot g env ammo).trace = [{ tag := ammo.Tag, protoCode := 200 }]) ∧
    (shoot g env ammo).status = .returned := by
  rw [shoot_invoke_trace g env ammo aggr method js message hb h hm hu]
  refine ⟨⟨_, rfl⟩, ?_, by simp [invocations], by simp [invocations], ?_, rfl⟩
  · intro hout
    have hsome : (env.InvokeRpc (buildMeta ammo.Metadata) method message).1.isSome = true :=
      Option.isSome_iff_ne_none.mpr hout
    simp [hsome]
  · intro hout
    have hsome : (env.InvokeRpc (buildMeta ammo.Metadata) method message).1.isSome = true :=
      Option.isSome_iff_ne_none.mpr hout
    simp [reports, hsome]

theorem shoot_invokes_once_and_reports_200_witness :
    echoGun.services.get? echoAmmo.Call = some echoMethod ∧
    (shoot echoGun echoEnv echoAmmo).trace =
      [.UnmarshalJSON echoRequest (.obj [("msg", .str "hi")]),
       .InvokeRpc (buildMeta [("x", "1")]) echoMethod
         { md := echoRequest, fields := [("msg", .str "hi")] },
       .Report { id := 1 } { tag := "t1", protoCode := 200 }] ∧
    (invocations (shoot echoGun echoEnv echoAmmo).trace).length = 1 ∧
    reports (shoot echoGun echoEnv echoAmmo).trace = [{ tag := "t1", protoCode := 200 }] :=
  have h := shoot_invokes_once_and_reports_200 echoGun echoEnv echoAmmo { id := 1 } echoMethod
    (.obj [("msg", .str "hi")]) { md := echoRequest, fields := [("msg", .str "hi")] }
    rfl (by decide) rfl rfl
  ⟨by decide, h.2.1 (by simp [echoEnv]), h.2.2.2.1, h.2.2.2.2.1 (by simp [echoEnv])⟩

/-- C4: when the ammo reaches invocation (call in the catalog, payload
unmarshals) and InvokeRpc returns a non-nil error, the one sample reported by
shoot has status code 0, for every stub that keeps the contract of
grpcdynamic.Stub.InvokeRpc, whose errors all come with a nil response. -/
theorem shoot_invoke_error_reports_zero (g : Gun) (env : Env) (ammo : Ammo)
    (aggr : Aggregator) (method : MethodDescriptor) (js : JSON) (message : Message) (e : String)
    (hb : g.aggr = some aggr)
    (h : g.services.get? ammo.Call = some method)
    (hm : json.Marshal ammo.Payload = some js)
    (hu : env.UnmarshalJSON method.inputType js = .ok message)
    (hstub : NilResponseOnError env.InvokeRpc)
    (herr : (env.InvokeRpc (buildMeta ammo.Metadata) method message).2 = some e) :
    (shoot g env ammo).trace =
      [.UnmarshalJSON method.inputType js,
       .InvokeRpc (buildMeta ammo.Metadata) method message,
       .Report aggr { tag := ammo.Tag, protoCode := 0 }] ∧
    reports (shoot g env ammo).trace = [{ tag := ammo.Tag, protoCode := 0 }] ∧
    (shoot g env ammo).status = .returned := by
  have hnil : (env.InvokeRpc (buildMeta ammo.Metadata) method message).1 = none :=
    hstub _ _ _ (by rw [herr]; exact Option.some_ne_none e)
  rw [shoot_invoke_trace g env ammo aggr method js message hb h hm hu]
  simp [hnil, reports]

theorem shoot_invoke_error_reports_zero_witness :
    NilResponseOnError downEnv.InvokeRpc ∧
    (downEnv.InvokeRpc (buildMeta echoAmmo.Metadata) echoMethod
      { md := echoRequest, fields := [("msg", .str "hi")] }).2 = some "transport is closing" ∧
    reports (shoot echoGun downEnv echoAmmo).trace = [{ tag := "t1", protoCode := 0 }] :=
  have hstub : NilResponseOnError downEnv.InvokeRpc := fun _ _ _ _ => rfl
  have h := shoot_invoke_error_reports_zero echoGun downEnv echoAmmo { id := 1 } echoMethod
    (.obj [("msg", .str "hi")]) { md := echoRequest, fields := [("msg", .str "hi")] }
    "transport is closing" rfl (by decide) rfl rfl hstub rfl
  ⟨hstub, rfl, h.2.1⟩

/-- C5: for every ammo read from an ammo document (payload decoded from JSON)
and every outcome of the catalog lookup, json.Marshal, the schema unmarshal and
InvokeRpc, shoot returns having handed exactly one sample to the aggregator:
the trace ends with the one Report, nothing before it is a Report, and the
sample carries the ammo's tag and one of the codes 0, 200, 400. Shoot on that
ammo does the same. -/
theorem shoot_reports_exactly_one_sample (g : Gun) (env : Env) (ammo : Ammo)
    (aggr : Aggregator) (hb : g.aggr = some aggr)
    (hjson : payloadDecoded ammo.Payload = true) :
    (∃ before code, (shoot g env ammo).trace =
        before ++ [.Report aggr { tag := ammo.Tag, protoCode := code }] ∧
      reports before = [] ∧
      reports (shoot g env ammo).trace = [{ tag := ammo.Tag, protoCode := code }] ∧
      (code = 0 ∨ code = 200 ∨ code = 400)) ∧
    (reports (shoot g env ammo).trace).length = 1 ∧
    (shoot g env ammo).status = .returned ∧
    Shoot g env (.custom ammo) = shoot g env ammo := by
  obtain ⟨js, hm⟩ := json.Marshal_of_decoded ammo.Payload hjson
  have key : ∃ before code,
      shoot g env ammo =
        { gun := g
          trace := before ++ [.Report aggr { tag := ammo.Tag, protoCode := code }]
          status := .returned } ∧
      reports before = [] ∧ (code = 0 ∨ code = 200 ∨ code = 400) := by
    cases h : g.services.get? ammo.Call with
    | none =>
      have hbody := shootBody_unknown g env ammo h
      have hs := shoot_of_returned g env ammo aggr hb (by rw [hbody])
      rw [hs, hbody]
      exact ⟨[], 0, rfl, rfl, Or.inl rfl⟩
    | some method =>
      cases hu : env.UnmarshalJSON method.inputType js with
      | error e =>
        have hbody := shootBody_bad_request g env ammo method js e h hm hu
        have hs := shoot_of_returned g env ammo aggr hb (by rw [hbody])
        rw [hs, hbody]
        exact ⟨[.UnmarshalJSON method.inputType js], 400, rfl, rfl, Or.inr (Or.inr rfl)⟩
      | ok message =>
        rw [shoot_invoke_trace g env ammo aggr method js message hb h hm hu]
        refine ⟨[.UnmarshalJSON method.inputType js,
          .InvokeRpc (buildMeta ammo.Metadata) method message], _, rfl, rfl, ?_⟩
        split
        · exact Or.inr (Or.inl rfl)
        · exact Or.inl rfl
  obtain ⟨before, code, hshoot, hbefore, hcode⟩ := key
  have hreports : reports (before ++ [Event.Report aggr { tag := ammo.Tag, protoCode := code }]) =
      [{ tag := ammo.Tag, protoCode := code }] := by
    have happ : reports (before ++ [Event.Report aggr { tag := ammo.Tag, protoCode := code }]) =
        reports before ++ reports [Event.Report aggr { tag := ammo.Tag, protoCode := code }] := by
      simp [reports, List.filterMap_append]
    rw [happ, hbefore]
    rfl
  refine ⟨?_, ?_, ?_, rfl⟩
  · rw [hshoot]
    exact ⟨before, code, rfl, hbefore, hreports, hcode⟩
  · rw [hshoot]
    simp only [hreports, List.length_singleton]
  · rw [hshoot]

theorem shoot_reports_exactly_one_sample_witness :
    payloadDecoded echoAmmo.Payload = true ∧
    (reports (shoot echoGun downEnv echoAmmo).trace).length = 1 ∧
    (shoot echoGun downEnv echoAmmo).status = .returned :=
  have h := shoot_reports_exactly_one_sample echoGun downEnv echoAmmo { id := 1 } rfl
    (by decide)
  ⟨by decide, h.2.1, h.2.2.1⟩

/-- C6, evaluated at the failing input: the ammo reaches invocation with the
two metadata entries a=1 and b=2; whichever entry the loop visits last is the
only one in the outgoing metadata of the single InvokeRpc call, and the other
key holds no value. -/
theorem shoot_metadata_keeps_last_pair_only :
    invocations (shoot echoGun echoEnv twoMetaAmmo).trace = [metadata.Pairs "b" "2"] ∧
    MD.Get (metadata.Pairs "b" "2") "b" = ["2"] ∧
    MD.Get (metadata.Pairs "b" "2") "a" = [] ∧
    invocations (shoot echoGun echoEnv twoMetaAmmoRev).trace = [metadata.Pairs "a" "1"] ∧
    MD.Get (metadata.Pairs "a" "1") "a" = ["1"] ∧
    MD.Get (metadata.Pairs "a" "1") "b" = [] := by
  refine ⟨by decide, by decide, by decide, by decide, by decide, by decide⟩

/-- C9 as stated fails: the payload with the single field msg is accepted and
invoked (status 200); the same payload with one more field, whose name is not
in the input schema, is rejected by the default-configured unmarshaller: shoot
reports status 400 and does not invoke. -/
theorem shoot_extra_field_reports_400 :
    reports (shoot echoGun echoEnv echoAmmo).trace = [{ tag := "t1", protoCode := 200 }] ∧
    echoMethod.inputType.FindFieldDescriptorByJSONName "extra" = none ∧
    reports (shoot echoGun echoEnv extraFieldAmmo).trace = [{ tag := "t1", protoCode := 400 }] ∧
    invocations (shoot echoGun echoEnv extraFieldAmmo).trace = [] := by
  refine ⟨by decide, by decide, by decide, by decide⟩

theorem encodeEntries_mem (name : String) (x : Value) :
    ∀ (entries : List (String × Value)) (members : List (String × JSON)),
      Value.encodeEntries entries = some members → (name, x) ∈ entries →
        ∃ v, (name, v) ∈ members := by
  intro entries
  induction entries with
  | nil => intro members _ h; cases h
  | cons p rest ih =>
    intro members henc hmem
    obtain ⟨k, w⟩ := p
    cases hv : Value.encode w with
    | none => simp [Value.encodeEntries, hv] at henc
    | some j =>
      cases hr : Value.encodeEntries rest with
      | none => simp [Value.encodeEntries, hv, hr] at henc
      | some js =>
        simp only [Value.encodeEntries, hv, hr, Option.some.injEq] at henc
        subst henc
        rcases List.mem_cons.mp hmem with heq | hrest
        · have hk : name = k := (Prod.mk.inj heq).1
          subst hk
          exact ⟨j, List.mem_cons_self _ _⟩
        · obtain ⟨v, hv2⟩ := ih js hr hrest
          exact ⟨v, List.mem_cons_of_mem _ hv2⟩

/-- C9, amended: for every method in the catalog whose input type is an
ordinary message (not a type the unmarshaller treats as well known) and every
payload decoded from JSON that holds a field whose name is neither the name nor
the JSON name of a field of the input schema, UnmarshalJSON, which runs with
its default options, fails at that field whatever the other fields hold: shoot
makes the one unmarshal call, reports status 400 and does not invoke the
method. -/
theorem shoot_unknown_field_rejected (g : Gun) (dec : Decoders)
    (invoke : MD → MethodDescriptor → Message → Option Message × Option String)
    (ammo : Ammo) (aggr : Aggregator) (method : MethodDescriptor)
    (entries : List (String × Value)) (name : String) (x : Value)
    (hb : g.aggr = some aggr)
    (h : g.services.get? ammo.Call = some method)
    (hwk : dec.wellKnown method.inputType = none)
    (hp : ammo.Payload = some entries)
    (hjson : payloadDecoded ammo.Payload = true)
    (hmem : (name, x) ∈ entries)
    (hf : method.inputType.FindFieldDescriptorByJSONName name = none) :
    ∃ js, json.Marshal ammo.Payload = some js ∧
      (shoot g (libraryEnv dec invoke) ammo).trace =
        [.UnmarshalJSON method.inputType js,
         .Report aggr { tag := ammo.Tag, protoCode := 400 }] ∧
      reports (shoot g (libraryEnv dec invoke) ammo).trace =
        [{ tag := ammo.Tag, protoCode := 400 }] ∧
      invocations (shoot g (libraryEnv dec invoke) ammo).trace = [] ∧
      (shoot g (libraryEnv dec invoke) ammo).status = .returned := by
  rw [hp] at hjson
  obtain ⟨members, henc⟩ := Value.encodeEntries_of_decoded entries hjson
  have hm : json.Marshal ammo.Payload = some (.obj members) := by
    rw [hp]; simp [json.Marshal, henc]
  obtain ⟨v, hv⟩ := encodeEntries_mem name x entries members henc hmem
  obtain ⟨e, he⟩ := UnmarshalJSON_unknown_field dec method.inputType members name v hwk hv hf
  have hbody := shootBody_bad_request g (libraryEnv dec invoke) ammo method (.obj members) e
    h hm he
  have hs := shoot_of_returned g (libraryEnv dec invoke) ammo aggr hb (by rw [hbody])
  refine ⟨.obj members, hm, ?_⟩
  rw [hs, hbody]
  simp [reports, invocations]

theorem shoot_unknown_field_rejected_witness :
    ("extra", Value.str "z") ∈ [("extra", Value.str "z"), ("msg", Value.str "hi")] ∧
    echoMethod.inputType.FindFieldDescriptorByJSONName "extra" = none ∧
    ∃ js, json.Marshal extraFieldAmmo.Payload = some js ∧
      (shoot echoGun (libraryEnv echoDecoders echoEnv.InvokeRpc) extraFieldAmmo).trace =
        [.UnmarshalJSON echoMethod.inputType js,
         .Report { id := 1 } { tag := extraFieldAmmo.Tag, protoCode := 400 }] ∧
      reports (shoot echoGun (libraryEnv echoDecoders echoEnv.InvokeRpc) extraFieldAmmo).trace =
        [{ tag := extraFieldAmmo.Tag, protoCode := 400 }] ∧
      invocations (shoot echoGun (libraryEnv echoDecoders echoEnv.InvokeRpc)
        extraFieldAmmo).trace = [] ∧
      (shoot echoGun (libraryEnv echoDecoders echoEnv.InvokeRpc) extraFieldAmmo).status =
        .returned :=
  ⟨List.mem_cons_self _ _, by decide,
    shoot_unknown_field_rejected echoGun echoDecoders echoEnv.InvokeRpc extraFieldAmmo
      { id := 1 } echoMethod [("extra", .str "z"), ("msg", .str "hi")] "extra" (.str "z")
      rfl (by decide) rfl rfl (by decide) (List.mem_cons_self _ _) (by decide)⟩

/-- C10: shoot never changes the catalog: for every gun, every behaviour of the
collaborators and every ammo, the gun after shoot (and after Shoot, whatever
the ammo type) has the same catalog, hence the same keys and the same
descriptor under every key. -/
theorem shoot_preserves_catalog (g : Gun) (env : Env) (ammo : Ammo) (any : CoreAmmo) :
    (shoot g env ammo).gun.services = g.services ∧
    (shoot g env ammo).gun.services.keys = g.services.keys ∧
    (∀ k, (shoot g env ammo).gun.services.get? k = g.services.get? k) ∧
    (Shoot g env any).gun.services = g.services := by
  have hshoot : ∀ a, (shoot g env a).gun = g := by
    intro a
    simp only [shoot]
    split
    · split <;> rfl
    · rfl
  refine ⟨by rw [hshoot], by rw [hshoot], fun k => by rw [hshoot], ?_⟩
  cases any with
  | custom a => simp only [Shoot]; rw [hshoot]
  | foreign t => rfl

/-! ## The claims about `Bind` -/

/-- C7, evaluated at the failing input: ListServices returns an error (and a
nil list); Bind does not end the process, it returns nil and leaves a bound gun
with an empty catalog. A listed service that fails to resolve does end the
process. -/
theorem Bind_ignores_ListServices_error :
    listFailsEnv.ListServices.2 = some "rpc error: code = Unimplemented" ∧
    Bind (NewGun { Target := "localhost:50051" }) listFailsEnv { id := 1 } { id := 1 } =
      .returned none
        { client := some { target := "localhost:50051" },
          conf := { Target := "localhost:50051" },
          aggr := some { id := 1 }, deps := some { id := 1 },
          stub := some { target := "localhost:50051" },
          services := [] } ∧
    Bind (NewGun { Target := "localhost:50051" }) resolveFailsEnv { id := 1 } { id := 1 } =
      .fatal "Service not found: pkg.Svc" := by
  refine ⟨rfl, by decide, by decide⟩

theorem GoMap.get?_set {V : Type} (m : GoMap V) (k k' : String) (v : V) :
    (m.set k v).get? k' = if k = k' then some v else m.get? k' := by
  induction m with
  | nil => simp [GoMap.set, GoMap.get?]
  | cons p rest ih =>
    obtain ⟨a, b⟩ := p
    by_cases hak : a = k
    · subst hak
      simp only [GoMap.set, if_true, GoMap.get?]
      by_cases hk : a = k' <;> simp [hk]
    · simp only [GoMap.set, hak, if_false, GoMap.get?, ih]
      by_cases hk : k = k'
      · subst hk
        simp [hak]
      · simp [hk]

theorem GoMap.keys_set {V : Type} (m : GoMap V) (k : String) (v : V) :
    (m.set k v).keys = if k ∈ m.keys then m.keys else m.keys ++ [k] := by
  induction m with
  | nil => simp [GoMap.set, GoMap.keys]
  | cons p rest ih =>
    obtain ⟨a, b⟩ := p
    by_cases hak : a = k
    · subst hak
      simp [GoMap.set, GoMap.keys]
    · have hka : ¬ k = a := fun h => hak h.symm
      have ih2 : List.map Prod.fst (GoMap.set rest k v) =
          if k ∈ List.map Prod.fst rest then List.map Prod.fst rest
          else List.map Prod.fst rest ++ [k] := ih
      simp only [GoMap.set, hak, if_false, GoMap.keys, List.map_cons, List.mem_cons, hka,
        false_or, ih2]
      split <;> simp

theorem GoMap.mem_keys_iff {V : Type} (m : GoMap V) (k : String) :
    k ∈ m.keys ↔ m.get? k ≠ none := by
  induction m with
  | nil => simp [GoMap.keys, GoMap.get?]
  | cons p rest ih =>
    obtain ⟨a, b⟩ := p
    have ih2 : k ∈ List.map Prod.fst rest ↔ GoMap.get? rest k ≠ none := ih
    by_cases hak : a = k
    · simp [GoMap.keys, GoMap.get?, hak]
    · have hka : ¬ k = a := fun h => hak h.symm
      simp only [GoMap.keys, List.map_cons, List.mem_cons, hka, false_or, GoMap.get?, hak,
        if_false, ih2]

theorem GoMap.nodup_keys_set {V : Type} (m : GoMap V) (k : String) (v : V)
    (h : m.keys.Nodup) : (m.set k v).keys.Nodup := by
  rw [GoMap.keys_set]
  split
  · exact h
  · rename_i hk
    exact List.Nodup.append h (List.nodup_singleton k) (by
      intro x hx hx2
      rw [List.mem_singleton] at hx2
      subst hx2
      exact hk hx)

theorem addMethods_get? (methods : List MethodDescriptor) :
    ∀ (services : GoMap MethodDescriptor) (k : String),
      (addMethods services methods).get? k = (lastNamed methods k).or (services.get? k) := by
  induction methods with
  | nil => intro services k; simp [addMethods, lastNamed]
  | cons a rest ih =>
    intro services k
    have hstep : addMethods services (a :: rest) =
        addMethods (services.set a.fullyQualifiedName a) rest := rfl
    rw [hstep, ih, GoMap.get?_set]
    simp only [lastNamed, List.reverse_cons, List.find?_append]
    cases hrest : List.find? (fun m => decide (m.fullyQualifiedName = k)) rest.reverse with
    | some x => simp
    | none =>
      by_cases hk : a.fullyQualifiedName = k
      · simp [hk, List.find?]
      · simp [hk, List.find?]

theorem addMethods_nodup (methods : List MethodDescriptor) :
    ∀ (services : GoMap MethodDescriptor), services.keys.Nodup →
      (addMethods services methods).keys.Nodup := by
  induction methods with
  | nil => intro services h; exact h
  | cons a rest ih =>
    intro services h
    exact ih _ (GoMap.nodup_keys_set services a.fullyQualifiedName a h)

theorem addMethods_append (services : GoMap MethodDescriptor) (xs ys : List MethodDescriptor) :
    addMethods (addMethods services xs) ys = addMethods services (xs ++ ys) := by
  simp [addMethods, List.foldl_append]

theorem discover_ok (renv : ReflectionEnv) :
    ∀ (listServices : List String) (services result : GoMap MethodDescriptor),
      discover renv listServices services = .ok result →
        (∀ s ∈ listServices, ∃ service, renv.ResolveService s = .ok service) ∧
        result = addMethods services (listServices.flatMap fun s =>
          match renv.ResolveService s with
          | .ok service => service.methods
          | .error _ => []) := by
  intro listServices
  induction listServices with
  | nil =>
    intro services result h
    simp only [discover, Except.ok.injEq] at h
    subst h
    simp [addMethods]
  | cons s rest ih =>
    intro services result h
    cases hr : renv.ResolveService s with
    | error e => simp [discover, hr] at h
    | ok service =>
      simp only [discover, hr] at h
      obtain ⟨hall, hres⟩ := ih _ _ h
      refine ⟨?_, ?_⟩
      · intro t ht
        rcases List.mem_cons.mp ht with heq | hin
        · subst heq; exact ⟨service, hr⟩
        · exact hall t hin
      · rw [hres, addMethods_append]
        simp [List.flatMap_cons, hr]

/-- C8: when Bind returns, it returns nil, every listed service resolved, and
the catalog of the gun it leaves holds exactly the fully-qualified names of the
methods of the resolved services as keys, one entry per key, each key mapped to
the last method carrying that name in iteration order (services in list order,
methods in service order); so every method's fully-qualified name is a key
whose entry carries that same name, and methods with different fully-qualified
names are found under different keys whatever their short names. -/
theorem Bind_catalog_last_write_wins (g : Gun) (renv : ReflectionEnv) (aggr : Aggregator)
    (deps : GunDeps) (err : Option String) (bound : Gun)
    (h : Bind g renv aggr deps = .returned err bound) :
    err = none ∧
    (∀ s ∈ renv.ListServices.1, ∃ service, renv.ResolveService s = .ok service) ∧
    (∀ k, k ∈ bound.services.keys ↔ ∃ m ∈ listedMethods renv, m.fullyQualifiedName = k) ∧
    bound.services.keys.Nodup ∧
    (∀ k, bound.services.get? k = lastNamed (listedMethods renv) k) ∧
    (∀ m ∈ listedMethods renv, ∃ entry, bound.services.get? m.fullyQualifiedName = some entry ∧
      entry.fullyQualifiedName = m.fullyQualifiedName ∧ entry ∈ listedMethods renv) := by
  unfold Bind at h
  cases hd : renv.Dial g.conf.Target with
  | error e => simp [hd] at h
  | ok conn =>
    cases hdisc : discover renv renv.ListServices.1 [] with
    | error e => simp [hd, hdisc] at h
    | ok services =>
      simp only [hd, hdisc, BindResult.returned.injEq] at h
      obtain ⟨herr, hbound⟩ := h
      obtain ⟨hall, hres⟩ := discover_ok renv _ _ _ hdisc
      have hserv : bound.services = addMethods [] (listedMethods renv) := by
        rw [← hbound]; exact hres
      have hget : ∀ k, bound.services.get? k = lastNamed (listedMethods renv) k := by
        intro k
        rw [hserv, addMethods_get?]
        simp [GoMap.get?]
      have hlast : ∀ k, lastNamed (listedMethods renv) k ≠ none ↔
          ∃ m ∈ listedMethods renv, m.fullyQualifiedName = k := by
        intro k
        rw [← Option.isSome_iff_ne_none]
        simp [lastNamed, List.find?_isSome]
      refine ⟨herr.symm, hall, ?_, ?_, hget, ?_⟩
      · intro k
        rw [GoMap.mem_keys_iff, hget, hlast]
      · rw [hserv]
        exact addMethods_nodup _ _ (by simp [GoMap.keys])
      · intro m hm
        have hne : lastNamed (listedMethods renv) m.fullyQualifiedName ≠ none :=
          (hlast _).mpr ⟨m, hm, rfl⟩
        cases hl : lastNamed (listedMethods renv) m.fullyQualifiedName with
        | none => exact absurd hl hne
        | some entry =>
          refine ⟨entry, by rw [hget, hl], ?_, ?_⟩
          · have := List.find?_some hl
            simpa using this
          · have := List.mem_of_find?_eq_some hl
            simpa using this

theorem Bind_catalog_last_write_wins_witness :
    Bind (NewGun { Target := "localhost:50051" }) threeServicesEnv { id := 1 } { id := 1 } =
      .returned none
        { client := some { target := "localhost:50051" },
          conf := { Target := "localhost:50051" },
          aggr := some { id := 1 }, deps := some { id := 1 },
          stub := some { target := "localhost:50051" },
          services := [("pkg.A.Echo", echoOf "pkg.A" "pkg.Req3"),
                       ("pkg.B.Echo", echoOf "pkg.B" "pkg.Req2")] } ∧
    (∀ k, GoMap.get? [("pkg.A.Echo", echoOf "pkg.A" "pkg.Req3"),
                      ("pkg.B.Echo", echoOf "pkg.B" "pkg.Req2")] k =
      lastNamed (listedMethods threeServicesEnv) k) :=
  have hb : Bind (NewGun { Target := "localhost:50051" }) threeServicesEnv { id := 1 }
      { id := 1 } = .returned none
        { client := some { target := "localhost:50051" },
          conf := { Target := "localhost:50051" },
          aggr := some { id := 1 }, deps := some { id := 1 },
          stub := some { target := "localhost:50051" },
          services := [("pkg.A.Echo", echoOf "pkg.A" "pkg.Req3"),
                       ("pkg.B.Echo", echoOf "pkg.B" "pkg.Req2")] } := by decide
  ⟨hb, (Bind_catalog_last_write_wins _ _ _ _ _ _ hb).2.2.2.2.1⟩

end GrpcGun
